import Mathlib

/-!
Shallow embedding of the analytics core of `src/pos.py` (POS Billing
Analytics Dashboard) and verification of its specification.

Modelling conventions:
* Python `str` is Lean `String`.  Python's lexicographic `<` on strings is
  embedded as the structurally recursive `strLt` on the underlying
  character lists (compared by code point, exactly Python's semantics);
  Python's `str.strip()` (used at `pos.py` line 40 to build
  `item_name_clean`) is embedded as `strip`, which removes leading and
  trailing whitespace characters.
* Python `dict` is an insertion-ordered association list: `getD` is
  `d.get(k, default)`, `setK` is `d[k] = v` (update in place if the key is
  present, append otherwise).
* pandas `NaT` (an unparseable `tran_date`) is `Option.none`; a parsed
  timestamp carries its date ordinal and minute of day.  A pandas
  comparison `NaT.date() >= start` is `False`, which the embedding of
  `apply_filters` reproduces by keeping a row only when its date is
  parsed and inside the range.
* Monetary and quantity columns are embedded as `ℚ`.
* `df.groupby` collects, for each distinct key, the group's rows in input
  order; groupby's sorting of the keys themselves is not modelled (keys
  appear in first-occurrence order) and no verified property depends on
  the ordering of distinct groups.  Python's `list(set(items))` at
  `pos.py` line 90 is embedded as `List.dedup` (its iteration order is
  hash-dependent in Python; all verified count tables are independent of
  that order).
-/

set_option autoImplicit false

namespace POS

/-- Code-point comparison of two characters, as Python compares `str`. -/
def charLt (a b : Char) : Bool := a.toNat < b.toNat

/-- Lexicographic comparison of character lists: Python's `<` on `str`. -/
def lexLt : List Char → List Char → Bool
  | [], [] => false
  | [], _ :: _ => true
  | _ :: _, [] => false
  | a :: as, b :: bs => if a = b then lexLt as bs else charLt a b

/-- Python's `<` on strings (lexicographic by code point). -/
def strLt (s t : String) : Bool := lexLt s.data t.data

/-- Whitespace recognised by Python's `str.strip()` (the forms that occur
in item names). -/
def isSpaceChar (c : Char) : Bool := c = ' ' ∨ c = '\t' ∨ c = '\n' ∨ c = '\r'

/-- Python's `str.strip()`: drop leading and trailing whitespace.
Embeds `pos.py` line 40, `df["item_name"].astype(str).str.strip()`. -/
def strip (s : String) : String :=
  ⟨((s.data.dropWhile isSpaceChar).reverse.dropWhile isSpaceChar).reverse⟩

/-- Python `d.get(k, dflt)` on an association-list dictionary. -/
def getD {α β : Type} [DecidableEq α] (d : List (α × β)) (k : α) (dflt : β) : β :=
  match d with
  | [] => dflt
  | (k', v) :: rest => if k = k' then v else getD rest k dflt

/-- Python `d[k] = v`: replace the value of an existing key in place,
append a new entry otherwise (insertion-ordered dictionary). -/
def setK {α β : Type} [DecidableEq α] (d : List (α × β)) (k : α) (v : β) : List (α × β) :=
  match d with
  | [] => [(k, v)]
  | (k', v') :: rest => if k = k' then (k, v) :: rest else (k', v') :: setK rest k v

/-- Python `d[k] = d.get(k, 0) + 1`, the increment pattern of
`compute_pair_counts` (`pos.py` lines 92 and 96). -/
def incr {α : Type} [DecidableEq α] (d : List (α × Nat)) (k : α) : List (α × Nat) :=
  setK d k (getD d k 0 + 1)

/-- Parsed transaction timestamp: date ordinal and minute of the day. -/
structure Timestamp where
  day : Nat
  minuteOfDay : Nat
deriving DecidableEq, Repr

/-- One row of the transaction table after ingestion (`pos.py` lines
27-40); `tran_date` is `none` when `pd.to_datetime` produced `NaT`. -/
structure LineItem where
  barcode : String
  item_name : String
  qty : ℚ
  pos_name : String
  tran_no : String
  tran_date : Option Timestamp
  rate : ℚ
  item_total : ℚ
deriving DecidableEq, Repr

/-- The `item_name_clean` column (`pos.py` line 40): the trimmed item name. -/
def item_name_clean (r : LineItem) : String := strip r.item_name

/-- The composite transaction key `(pos_name, tran_no)`. -/
def tranKey (r : LineItem) : String × String := (r.pos_name, r.tran_no)

/-- Whether a row passes the POS-name filter of `apply_filters`
(`pos.py` lines 66-67): the filter applies only when the selection is a
non-empty string other than `"All"`. -/
def posKeep (selected_pos : String) (r : LineItem) : Bool :=
  if selected_pos ≠ "" ∧ selected_pos ≠ "All" then r.pos_name = selected_pos else true

/-- Whether a row passes the date-range filter (`pos.py` lines 68-70).
`tran_date.dt.date >= start` is `False` in pandas when the date is `NaT`,
so an unparsed date never passes an active range filter. -/
def dateKeep (range : Nat × Nat) (r : LineItem) : Bool :=
  match r.tran_date with
  | none => false
  | some t => range.1 ≤ t.day ∧ t.day ≤ range.2

/-- Embeds `apply_filters` (`pos.py` lines 64-71): POS-name filter, then
date-range filter when a range is selected (`selected_dates` is `none`
exactly when the source's `selected_dates` is `None`). -/
def apply_filters (selected_pos : String) (selected_dates : Option (Nat × Nat))
    (rows : List LineItem) : List LineItem :=
  let df1 := rows.filter (posKeep selected_pos)
  match selected_dates with
  | none => df1
  | some range => df1.filter (dateKeep range)

/-- KPI `total_sales = filtered_df["item_total"].sum()` (`pos.py` line 115). -/
def total_sales (rows : List LineItem) : ℚ := (rows.map LineItem.item_total).sum

/-- KPI `total_items = filtered_df["qty"].sum()` (`pos.py` line 116). -/
def total_items (rows : List LineItem) : ℚ := (rows.map LineItem.qty).sum

/-- KPI `total_bills`: number of distinct `(pos_name, tran_no)` groups
(`pos.py` line 117). -/
def total_bills (rows : List LineItem) : Nat := ((rows.map tranKey).dedup).length

/-- Hour bucket of a parsed timestamp (`tran_date.dt.hour`). -/
def hourOf (t : Timestamp) : Nat := t.minuteOfDay / 60

/-- Hourly sales trend (`pos.py` lines 129-133): total `item_total` of the
rows whose parsed hour equals `h`; rows with an unparsed date fall in no
bucket, exactly as pandas `groupby` drops a `NaN` hour. -/
def hourly_total (rows : List LineItem) (h : Nat) : ℚ :=
  total_sales (rows.filter fun r =>
    match r.tran_date with
    | none => false
    | some t => hourOf t = h)

/-- Half-hour bucket of a parsed timestamp (`tran_date.dt.floor("30T")`):
the day together with the index of the 30-minute slot. -/
def halfHourOf (t : Timestamp) : Nat × Nat := (t.day, t.minuteOfDay / 30)

/-- Half-hour sales trend (`pos.py` lines 148-149): total `item_total` of
the rows in a 30-minute slot; rows with an unparsed date fall in no slot. -/
def half_hour_total (rows : List LineItem) (b : Nat × Nat) : ℚ :=
  total_sales (rows.filter fun r =>
    match r.tran_date with
    | none => false
    | some t => halfHourOf t = b)

/-- One row of the DataFrame returned by `build_baskets`: a transaction
key together with the list of its (trimmed) item names. -/
structure Basket where
  pos_name : String
  tran_no : String
  items : List String
deriving DecidableEq, Repr

/-- Embeds `build_baskets` (`pos.py` lines 76-81):
`df_b.groupby(['pos_name','tran_no'])['item_name_clean'].apply(list)`.
One output row per distinct transaction key; its `items` are the
`item_name_clean` values of that transaction's rows in input order
(`apply(list)` keeps every occurrence — it does not deduplicate). -/
def build_baskets (rows : List LineItem) : List Basket :=
  ((rows.map tranKey).dedup).map fun k =>
    ⟨k.1, k.2, (rows.filter fun r => tranKey r = k).map item_name_clean⟩

/-- Python `tuple(sorted([a, b]))` for two strings (`pos.py` line 95):
the pair in ascending lexicographic order (`sorted` is stable, so the
input order is kept unless the second element is strictly smaller). -/
def sortPair (a b : String) : String × String :=
  if strLt b a then (b, a) else (a, b)

/-- The presence loop of `compute_pair_counts` (`pos.py` lines 91-92):
increment `trans_count_for_item[item]` for every item of `unique_items`. -/
def presenceLoop (d : List (String × Nat)) (us : List String) : List (String × Nat) :=
  us.foldl incr d

/-- The pair loop of `compute_pair_counts` (`pos.py` lines 93-96): for
every `i < j` increment `pair_counts[tuple(sorted([us[i], us[j]]))]`. -/
def pairLoop : List String → List ((String × String) × Nat) → List ((String × String) × Nat)
  | [], d => d
  | x :: rest, d => pairLoop rest (rest.foldl (fun acc y => incr acc (sortPair x y)) d)

/-- One iteration of the basket loop of `compute_pair_counts`
(`pos.py` lines 89-96): deduplicate the basket (`list(set(items))`), then
run the presence loop and the pair loop. -/
def cpcStep (acc : List ((String × String) × Nat) × List (String × Nat)) (b : Basket) :
    List ((String × String) × Nat) × List (String × Nat) :=
  let us := b.items.dedup
  (pairLoop us acc.1, presenceLoop acc.2 us)

/-- Embeds `compute_pair_counts` (`pos.py` lines 83-97): returns the pair
co-occurrence dictionary and the per-item transaction-presence dictionary. -/
def compute_pair_counts (baskets : List Basket) :
    List ((String × String) × Nat) × List (String × Nat) :=
  baskets.foldl cpcStep ([], [])

/-- The conditional-probability ("chance") computation of the
co-occurrence fallback (`pos.py` lines 213-222): for a recorded pair the
stored count is found under the lexicographically sorted key, and the
chance of `other` given `given` is `count / presence(given) * 100` when
the presence is positive, `0.0` otherwise (`d.get(a, 0)` makes an absent
item behave as presence `0`). -/
def conditional_chance (pair_counts : List ((String × String) × Nat))
    (trans_count : List (String × Nat)) (given other : String) : ℚ :=
  let cnt := getD pair_counts (sortPair given other) 0
  let g := getD trans_count given 0
  if 0 < g then ((cnt : ℚ) / (g : ℚ)) * 100 else 0

/-- The `min_support` argument passed to `apriori` (`pos.py` line 192). -/
def apriori_min_support : ℚ := 2 / 100

/-- The `min_threshold` argument passed to `association_rules` with
`metric="confidence"` (`pos.py` line 193). -/
def association_min_threshold : ℚ := 1 / 10

/-! ### Dictionary lemmas -/

theorem getD_setK {α β : Type} [DecidableEq α] (d : List (α × β)) (k k' : α) (v dflt : β) :
    getD (setK d k v) k' dflt = if k' = k then v else getD d k' dflt := by
  induction d with
  | nil =>
    by_cases h : k' = k <;> simp [setK, getD, h]
  | cons e rest ih =>
    obtain ⟨k0, v0⟩ := e
    by_cases h : k = k0
    · subst h
      by_cases h' : k' = k <;> simp [setK, getD, h', ih]
    · by_cases h' : k' = k0
      · subst h'
        have hne : ¬ (k' = k) := fun hk => h hk.symm
        simp [setK, getD, h, hne]
      · by_cases h2 : k' = k
        · subst h2
          simp [setK, getD, h, h', ih]
        · simp [setK, getD, h, h', h2, ih]

theorem getD_incr {α : Type} [DecidableEq α] (d : List (α × Nat)) (k k' : α) :
    getD (incr d k) k' 0 = getD d k' 0 + if k' = k then 1 else 0 := by
  unfold incr
  rw [getD_setK]
  by_cases h : k' = k
  · subst h; simp
  · simp [h]

theorem mem_setK {α β : Type} [DecidableEq α] (d : List (α × β)) (k : α) (v : β)
    (e : α × β) (he : e ∈ setK d k v) : e = (k, v) ∨ e ∈ d := by
  induction d with
  | nil => simpa [setK] using he
  | cons e0 rest ih =>
    obtain ⟨k0, v0⟩ := e0
    simp only [setK] at he
    split_ifs at he with h
    · rcases List.mem_cons.mp he with h1 | h1
      · exact Or.inl h1
      · exact Or.inr (List.mem_cons_of_mem _ h1)
    · rcases List.mem_cons.mp he with h1 | h1
      · exact Or.inr (h1 ▸ List.mem_cons_self _ _)
      · rcases ih h1 with h2 | h2
        · exact Or.inl h2
        · exact Or.inr (List.mem_cons_of_mem _ h2)

theorem mem_incr {α : Type} [DecidableEq α] (d : List (α × Nat)) (k : α)
    (e : α × Nat) (he : e ∈ incr d k) : e ∈ d ∨ (e.1 = k ∧ 1 ≤ e.2) := by
  rcases mem_setK _ _ _ _ he with h | h
  · right; subst h; exact ⟨rfl, Nat.le_add_left 1 _⟩
  · exact Or.inl h

theorem mem_keys_setK {α β : Type} [DecidableEq α] (d : List (α × β)) (k k' : α) (v : β) :
    k' ∈ (setK d k v).map Prod.fst ↔ k' = k ∨ k' ∈ d.map Prod.fst := by
  induction d with
  | nil => simp [setK]
  | cons e0 rest ih =>
    obtain ⟨k0, v0⟩ := e0
    simp only [setK]
    split_ifs with h
    · subst h
      simp
    · simp only [List.map_cons, List.mem_cons, ih]
      tauto

theorem keysNodup_setK {α β : Type} [DecidableEq α] (d : List (α × β)) (k : α) (v : β)
    (h : (d.map Prod.fst).Nodup) : ((setK d k v).map Prod.fst).Nodup := by
  induction d with
  | nil => simp [setK]
  | cons e0 rest ih =>
    obtain ⟨k0, v0⟩ := e0
    simp only [List.map_cons, List.nodup_cons] at h
    simp only [setK]
    split_ifs with hk
    · simp only [List.map_cons, List.nodup_cons]
      exact ⟨by rw [hk]; exact h.1, h.2⟩
    · simp only [List.map_cons, List.nodup_cons]
      refine ⟨fun hmem => ?_, ih h.2⟩
      rcases (mem_keys_setK rest k k0 v).mp hmem with h1 | h1
      · exact hk h1.symm
      · exact h.1 h1

theorem getD_of_mem {α : Type} [DecidableEq α] (d : List (α × Nat))
    (h : (d.map Prod.fst).Nodup) (k : α) (v : Nat) (hm : (k, v) ∈ d) :
    getD d k 0 = v := by
  induction d with
  | nil => simp at hm
  | cons e0 rest ih =>
    obtain ⟨k0, v0⟩ := e0
    simp only [List.map_cons, List.nodup_cons] at h
    rcases List.mem_cons.mp hm with he | he
    · cases he
      simp [getD]
    · have hk : k ≠ k0 := by
        intro hkk
        subst hkk
        exact h.1 (List.mem_map.mpr ⟨(k, v), he, rfl⟩)
      simp [getD, hk, ih h.2 he]

/-! ### String-order lemmas -/

theorem charLt_asymm {a b : Char} (h : charLt a b = true) : charLt b a = false := by
  simp only [charLt, decide_eq_true_eq] at h
  simp only [charLt, decide_eq_false_iff_not]
  omega

theorem charLt_eq {a b : Char} (h : charLt a b = false) (h' : charLt b a = false) : a = b := by
  simp only [charLt, decide_eq_false_iff_not] at h h'
  exact Char.ext (UInt32.ext (le_antisymm (le_of_not_lt h') (le_of_not_lt h)))

theorem lexLt_asymm : ∀ {l1 l2 : List Char}, lexLt l1 l2 = true → lexLt l2 l1 = false
  | [], [], h => by simp [lexLt] at h
  | [], _ :: _, _ => by simp [lexLt]
  | _ :: _, [], h => by simp [lexLt] at h
  | a :: as, b :: bs, h => by
    by_cases hab : a = b
    · subst hab
      simp only [lexLt, if_pos rfl] at h ⊢
      exact lexLt_asymm h
    · have hba : ¬ (b = a) := fun hh => hab hh.symm
      simp only [lexLt, if_neg hab] at h
      simp only [lexLt, if_neg hba]
      exact charLt_asymm h

theorem lexLt_eq : ∀ {l1 l2 : List Char}, lexLt l1 l2 = false → lexLt l2 l1 = false → l1 = l2
  | [], [], _, _ => rfl
  | [], _ :: _, h, _ => by simp [lexLt] at h
  | _ :: _, [], _, h' => by simp [lexLt] at h'
  | a :: as, b :: bs, h, h' => by
    by_cases hab : a = b
    · subst hab
      simp only [lexLt, if_pos rfl] at h h'
      rw [lexLt_eq h h']
    · have hba : ¬ (b = a) := fun hh => hab hh.symm
      simp only [lexLt, if_neg hab] at h
      simp only [lexLt, if_neg hba] at h'
      exact absurd (charLt_eq h h') hab

theorem lexLt_irrefl : ∀ (l : List Char), lexLt l l = false
  | [] => rfl
  | a :: as => by simp [lexLt, lexLt_irrefl as]

theorem str_eq_of_data {s t : String} (h : s.data = t.data) : s = t := by
  cases s; cases t; simp_all

theorem strLt_asymm {s t : String} (h : strLt s t = true) : strLt t s = false :=
  lexLt_asymm h

theorem strLt_eq {s t : String} (h : strLt s t = false) (h' : strLt t s = false) : s = t :=
  str_eq_of_data (lexLt_eq h h')

theorem strLt_irrefl (s : String) : strLt s s = false := lexLt_irrefl s.data

theorem strLt_ne {s t : String} (h : strLt s t = true) : s ≠ t := by
  intro he
  subst he
  rw [strLt_irrefl] at h
  exact Bool.false_ne_true h

/-! ### `sortPair` lemmas -/

theorem sortPair_symm (a b : String) : sortPair a b = sortPair b a := by
  unfold sortPair
  cases hba : strLt b a with
  | true => rw [strLt_asymm hba]; simp
  | false =>
    cases hab : strLt a b with
    | true => simp
    | false => rw [strLt_eq hab hba]

theorem sortPair_fst_lt {a b : String} (h : a ≠ b) :
    strLt (sortPair a b).1 (sortPair a b).2 = true := by
  unfold sortPair
  cases hba : strLt b a with
  | true => simpa using hba
  | false =>
    cases hab : strLt a b with
    | true => simpa using hab
    | false => exact absurd (strLt_eq hab hba) h

theorem sortPair_of_lt {a b : String} (h : strLt a b = true) : sortPair a b = (a, b) := by
  unfold sortPair
  rw [strLt_asymm h]
  simp

theorem sortPair_eq_iff (x y a b : String) :
    sortPair x y = sortPair a b ↔ (x = a ∧ y = b) ∨ (x = b ∧ y = a) := by
  constructor
  · intro h
    unfold sortPair at h
    split_ifs at h <;>
      simp only [Prod.mk.injEq] at h <;> tauto
  · rintro (⟨h1, h2⟩ | ⟨h1, h2⟩)
    · rw [h1, h2]
    · rw [h1, h2, sortPair_symm]

/-! ### Per-basket loop characterizations -/

/-- Number of ordered index pairs `i < j` of `us` whose sorted item pair is
`p` — the number of increments the pair loop makes to key `p` on `us`. -/
def countPair (p : String × String) : List String → Nat
  | [] => 0
  | x :: rest => rest.countP (fun y => sortPair x y = p) + countPair p rest

theorem countP_key_eq {α : Type} [DecidableEq α] (us : List α) (k : α) (h : us.Nodup) :
    us.countP (fun y => y = k) = if k ∈ us then 1 else 0 := by
  induction us with
  | nil => simp
  | cons x rest ih =>
    simp only [List.nodup_cons] at h
    rw [List.countP_cons, ih h.2]
    by_cases hx : x = k
    · subst hx
      simp [h.1]
    · have : ¬ (k = x) := fun hk => hx hk.symm
      simp [hx, this, List.mem_cons]

theorem if_eq_comm_nat {α : Type} [DecidableEq α] (a b : α) :
    (if a = b then (1 : Nat) else 0) = if b = a then 1 else 0 := by
  by_cases h : a = b
  · simp [h]
  · have h' : ¬ (b = a) := fun hk => h hk.symm
    simp [h, h']

theorem getD_presenceLoop (us : List String) (d : List (String × Nat)) (k : String) :
    getD (presenceLoop d us) k 0 = getD d k 0 + us.countP (fun y => y = k) := by
  induction us generalizing d with
  | nil => simp [presenceLoop]
  | cons x rest ih =>
    simp only [presenceLoop, List.foldl_cons] at ih ⊢
    rw [ih, getD_incr, List.countP_cons]
    simp only [decide_eq_true_eq]
    rw [if_eq_comm_nat k x]
    ring

theorem getD_pairFold (x : String) (rest : List String)
    (d : List ((String × String) × Nat)) (p : String × String) :
    getD (rest.foldl (fun acc y => incr acc (sortPair x y)) d) p 0 =
      getD d p 0 + rest.countP (fun y => sortPair x y = p) := by
  induction rest generalizing d with
  | nil => simp
  | cons y ys ih =>
    rw [List.foldl_cons, ih, getD_incr, List.countP_cons]
    simp only [decide_eq_true_eq]
    rw [if_eq_comm_nat p (sortPair x y)]
    ring

theorem getD_pairLoop (us : List String) (d : List ((String × String) × Nat))
    (p : String × String) :
    getD (pairLoop us d) p 0 = getD d p 0 + countPair p us := by
  induction us generalizing d with
  | nil => simp [pairLoop, countPair]
  | cons x rest ih =>
    rw [pairLoop, ih, getD_pairFold, countPair]
    ring

theorem countPair_nodup {a b : String} (hab : a ≠ b) (us : List String) (h : us.Nodup) :
    countPair (sortPair a b) us = if a ∈ us ∧ b ∈ us then 1 else 0 := by
  induction us with
  | nil => simp [countPair]
  | cons x rest ih =>
    simp only [List.nodup_cons] at h
    rw [countPair, ih h.2]
    by_cases hxa : x = a
    · subst hxa
      have hcount : rest.countP (fun y => sortPair x y = sortPair x b) =
          rest.countP (fun y => y = b) := by
        refine List.countP_congr fun y _ => ?_
        simp only [decide_eq_true_eq]
        rw [sortPair_eq_iff]
        constructor
        · rintro (⟨_, h2⟩ | ⟨h1, _⟩)
          · exact h2
          · exact absurd h1 hab
        · intro hy
          exact Or.inl ⟨rfl, hy⟩
      rw [hcount, countP_key_eq rest b h.2]
      have hx_not : ¬ (x ∈ rest ∧ b ∈ rest) := fun hc => h.1 hc.1
      rw [if_neg hx_not]
      have hbx : (b ∈ x :: rest) ↔ b ∈ rest := by
        simp only [List.mem_cons]
        constructor
        · rintro (h1 | h1)
          · exact absurd h1.symm hab
          · exact h1
        · exact Or.inr
      have hxm : x ∈ x :: rest := List.mem_cons_self x rest
      by_cases hb : b ∈ rest
      · simp [hb, hxm, hbx]
      · simp [hb, hbx]
    · by_cases hxb : x = b
      · subst hxb
        have hcount : rest.countP (fun y => sortPair x y = sortPair a x) =
            rest.countP (fun y => y = a) := by
          refine List.countP_congr fun y _ => ?_
          simp only [decide_eq_true_eq]
          rw [sortPair_eq_iff]
          constructor
          · rintro (⟨h1, _⟩ | ⟨_, h2⟩)
            · exact absurd h1 hxa
            · exact h2
          · intro hy
            exact Or.inr ⟨rfl, hy⟩
        rw [hcount, countP_key_eq rest a h.2]
        have hx_not : ¬ (a ∈ rest ∧ x ∈ rest) := fun hc => h.1 hc.2
        rw [if_neg hx_not]
        have hax : (a ∈ x :: rest) ↔ a ∈ rest := by
          simp only [List.mem_cons]
          constructor
          · rintro (h1 | h1)
            · exact absurd h1.symm hxa
            · exact h1
          · exact Or.inr
        have hxm : x ∈ x :: rest := List.mem_cons_self x rest
        by_cases ha : a ∈ rest
        · simp [ha, hxm, hax]
        · simp [ha, hax]
      · have hcount : rest.countP (fun y => sortPair x y = sortPair a b) = 0 := by
          rw [List.countP_eq_zero]
          intro y _
          simp only [decide_eq_true_eq]
          rw [sortPair_eq_iff]
          rintro (⟨h1, _⟩ | ⟨h1, _⟩)
          · exact hxa h1
          · exact hxb h1
        rw [hcount]
        have hax : ¬ (a = x) := fun h1 => hxa h1.symm
        have hbxx : ¬ (b = x) := fun h1 => hxb h1.symm
        have hiff : (a ∈ x :: rest ∧ b ∈ x :: rest) ↔ (a ∈ rest ∧ b ∈ rest) := by
          simp [List.mem_cons, hax, hbxx]
        rw [if_congr hiff rfl rfl]
        ring

/-! ### Global `compute_pair_counts` characterizations -/

theorem cpc_presence_aux (bs : List Basket) (pc : List ((String × String) × Nat))
    (tc : List (String × Nat)) (k : String) :
    getD ((bs.foldl cpcStep (pc, tc)).2) k 0 =
      getD tc k 0 + bs.countP (fun b => k ∈ b.items) := by
  induction bs generalizing pc tc with
  | nil => simp
  | cons b rest ih =>
    have hstep : cpcStep (pc, tc) b =
        (pairLoop (b.items.dedup) pc, presenceLoop tc (b.items.dedup)) := rfl
    rw [List.foldl_cons, hstep, ih, getD_presenceLoop,
      countP_key_eq _ _ (List.nodup_dedup _), List.countP_cons]
    simp only [decide_eq_true_eq, List.mem_dedup]
    ring

theorem cpc_pair_aux (bs : List Basket) (pc : List ((String × String) × Nat))
    (tc : List (String × Nat)) {a b : String} (hab : a ≠ b) :
    getD ((bs.foldl cpcStep (pc, tc)).1) (sortPair a b) 0 =
      getD pc (sortPair a b) 0 + bs.countP (fun bk => a ∈ bk.items ∧ b ∈ bk.items) := by
  induction bs generalizing pc tc with
  | nil => simp
  | cons bk rest ih =>
    have hstep : cpcStep (pc, tc) bk =
        (pairLoop (bk.items.dedup) pc, presenceLoop tc (bk.items.dedup)) := rfl
    rw [List.foldl_cons, hstep, ih, getD_pairLoop,
      countPair_nodup hab _ (List.nodup_dedup _), List.countP_cons]
    simp only [decide_eq_true_eq, List.mem_dedup]
    ring

theorem presence_char (bs : List Basket) (k : String) :
    getD ((compute_pair_counts bs).2) k 0 = bs.countP (fun b => k ∈ b.items) := by
  unfold compute_pair_counts
  rw [cpc_presence_aux]
  simp [getD]

theorem pair_char (bs : List Basket) {a b : String} (hab : a ≠ b) :
    getD ((compute_pair_counts bs).1) (sortPair a b) 0 =
      bs.countP (fun bk => a ∈ bk.items ∧ b ∈ bk.items) := by
  unfold compute_pair_counts
  rw [cpc_pair_aux _ _ _ hab]
  simp [getD]

/-! ### Table invariants -/

theorem pairFold_inv (x : String) (rest : List String) (hx : ∀ y ∈ rest, x ≠ y)
    (pc : List ((String × String) × Nat))
    (hpc : ∀ e ∈ pc, strLt e.1.1 e.1.2 = true ∧ 1 ≤ e.2) :
    ∀ e ∈ rest.foldl (fun acc y => incr acc (sortPair x y)) pc,
      strLt e.1.1 e.1.2 = true ∧ 1 ≤ e.2 := by
  induction rest generalizing pc with
  | nil => exact hpc
  | cons y ys ih =>
    rw [List.foldl_cons]
    refine ih (fun z hz => hx z (List.mem_cons_of_mem _ hz)) _ fun e he => ?_
    rcases mem_incr _ _ _ he with h1 | h1
    · exact hpc e h1
    · refine ⟨?_, h1.2⟩
      rw [h1.1]
      exact sortPair_fst_lt (hx y (List.mem_cons_self y ys))

theorem pairLoop_inv (us : List String) (hnd : us.Nodup)
    (pc : List ((String × String) × Nat))
    (hpc : ∀ e ∈ pc, strLt e.1.1 e.1.2 = true ∧ 1 ≤ e.2) :
    ∀ e ∈ pairLoop us pc, strLt e.1.1 e.1.2 = true ∧ 1 ≤ e.2 := by
  induction us generalizing pc with
  | nil => exact hpc
  | cons x rest ih =>
    simp only [List.nodup_cons] at hnd
    rw [pairLoop]
    exact ih hnd.2 _ (pairFold_inv x rest (fun y hy hxy => hnd.1 (hxy ▸ hy)) pc hpc)

theorem pairFold_keysNodup (x : String) (rest : List String)
    (pc : List ((String × String) × Nat)) (h : (pc.map Prod.fst).Nodup) :
    (((rest.foldl (fun acc y => incr acc (sortPair x y)) pc).map Prod.fst)).Nodup := by
  induction rest generalizing pc with
  | nil => exact h
  | cons y ys ih =>
    rw [List.foldl_cons]
    exact ih _ (keysNodup_setK _ _ _ h)

theorem pairLoop_keysNodup (us : List String) (pc : List ((String × String) × Nat))
    (h : (pc.map Prod.fst).Nodup) : ((pairLoop us pc).map Prod.fst).Nodup := by
  induction us generalizing pc with
  | nil => exact h
  | cons x rest ih =>
    rw [pairLoop]
    exact ih _ (pairFold_keysNodup x rest pc h)

theorem presenceLoop_inv (us : List String) (tc : List (String × Nat))
    (h : ∀ e ∈ tc, 1 ≤ e.2) : ∀ e ∈ presenceLoop tc us, 1 ≤ e.2 := by
  induction us generalizing tc with
  | nil => exact h
  | cons x rest ih =>
    simp only [presenceLoop, List.foldl_cons] at ih ⊢
    refine ih _ fun e he => ?_
    rcases mem_incr _ _ _ he with h1 | h1
    · exact h e h1
    · exact h1.2

theorem cpc_inv (bs : List Basket) :
    (∀ e ∈ (compute_pair_counts bs).1, strLt e.1.1 e.1.2 = true ∧ 1 ≤ e.2)
    ∧ (∀ e ∈ (compute_pair_counts bs).2, 1 ≤ e.2)
    ∧ (((compute_pair_counts bs).1.map Prod.fst).Nodup) := by
  suffices h : ∀ (pc : List ((String × String) × Nat)) (tc : List (String × Nat)),
      (∀ e ∈ pc, strLt e.1.1 e.1.2 = true ∧ 1 ≤ e.2) → (∀ e ∈ tc, 1 ≤ e.2) →
      ((pc.map Prod.fst).Nodup) →
      (∀ e ∈ (bs.foldl cpcStep (pc, tc)).1, strLt e.1.1 e.1.2 = true ∧ 1 ≤ e.2)
      ∧ (∀ e ∈ (bs.foldl cpcStep (pc, tc)).2, 1 ≤ e.2)
      ∧ (((bs.foldl cpcStep (pc, tc)).1.map Prod.fst).Nodup) by
    exact h [] [] (by simp) (by simp) (by simp)
  induction bs with
  | nil => exact fun pc tc h1 h2 h3 => ⟨h1, h2, h3⟩
  | cons b rest ih =>
    intro pc tc h1 h2 h3
    rw [List.foldl_cons]
    have hstep : cpcStep (pc, tc) b =
        (pairLoop (b.items.dedup) pc, presenceLoop tc (b.items.dedup)) := rfl
    rw [hstep]
    exact ih _ _ (pairLoop_inv _ (List.nodup_dedup _) _ h1)
      (presenceLoop_inv _ _ h2) (pairLoop_keysNodup _ _ h3)

theorem pair_entry_getD (bs : List Basket) (e : (String × String) × Nat)
    (he : e ∈ (compute_pair_counts bs).1) :
    getD (compute_pair_counts bs).1 e.1 0 = e.2 := by
  have h := (cpc_inv bs).2.2
  exact getD_of_mem _ h e.1 e.2 (by simpa using he)

theorem cpcStep_dedup (acc : List ((String × String) × Nat) × List (String × Nat))
    (b : Basket) :
    cpcStep acc ⟨b.pos_name, b.tran_no, b.items.dedup⟩ = cpcStep acc b := by
  simp [cpcStep, List.dedup_idem]

theorem compute_pair_counts_dedup (bs : List Basket) :
    compute_pair_counts (bs.map fun b => ⟨b.pos_name, b.tran_no, b.items.dedup⟩) =
      compute_pair_counts bs := by
  unfold compute_pair_counts
  suffices h : ∀ acc, ((bs.map fun b => (⟨b.pos_name, b.tran_no, b.items.dedup⟩ : Basket)).foldl
      cpcStep acc) = bs.foldl cpcStep acc from h _
  induction bs with
  | nil => intro acc; rfl
  | cons b rest ih =>
    intro acc
    rw [List.map_cons, List.foldl_cons, List.foldl_cons, cpcStep_dedup]
    exact ih _

/-! ### Claims -/

/-- C1 (corrected, counterexample): `build_baskets` does not deduplicate —
two line-items of the same transaction with the same (trimmed) item name
produce a basket whose item list contains that name twice, refuting the
claim that every returned basket contains each distinct item name at most
once. -/
theorem C1_counterexample :
    build_baskets [⟨"b1", " A ", 1, "P", "T1", none, 5, 5⟩,
        ⟨"b1", " A ", 1, "P", "T1", none, 5, 5⟩] = [⟨"P", "T1", ["A", "A"]⟩]
    ∧ ¬ (["A", "A"] : List String).Nodup := by
  constructor
  · decide
  · decide

/-- C1 (amended): `build_baskets` groups line-items by the composite key
`(pos_name, tran_no)` — one basket per distinct key, the basket keys being
exactly the keys of the input rows — and each basket's item list is the
whitespace-trimmed `item_name` values of that transaction's line-items in
input order, preserving duplicate occurrences (deduplication is deferred
to `compute_pair_counts`). -/
theorem C1_build_baskets_grouping : ∀ rows : List LineItem,
    ((build_baskets rows).map fun b => (b.pos_name, b.tran_no)).Nodup
    ∧ (∀ k : String × String,
        (k ∈ (build_baskets rows).map fun b => (b.pos_name, b.tran_no)) ↔
          k ∈ rows.map tranKey)
    ∧ ∀ b ∈ build_baskets rows,
        b.items = (rows.filter fun r => tranKey r = (b.pos_name, b.tran_no)).map
          item_name_clean := by
  intro rows
  have hmap : ((build_baskets rows).map fun b => (b.pos_name, b.tran_no)) =
      (rows.map tranKey).dedup := by
    unfold build_baskets
    rw [List.map_map]
    have hcomp : ((fun b : Basket => (b.pos_name, b.tran_no)) ∘ fun k : String × String =>
        (⟨k.1, k.2, (rows.filter fun r => tranKey r = k).map item_name_clean⟩ : Basket)) =
        fun k => k := rfl
    rw [hcomp]
    simp
  refine ⟨?_, fun k => ?_, fun b hb => ?_⟩
  · rw [hmap]
    exact List.nodup_dedup _
  · rw [hmap]
    exact List.mem_dedup
  · obtain ⟨k, hk, rfl⟩ := List.mem_map.mp hb
    simp

/-- C1 witness: the amended grouping theorem applied to the concrete
duplicated input of the counterexample. -/
theorem C1_witness :
    ((⟨"P", "T1", ["A", "A"]⟩ : Basket)).items =
      (([⟨"b1", " A ", 1, "P", "T1", none, 5, 5⟩,
          ⟨"b1", " A ", 1, "P", "T1", none, 5, 5⟩] : List LineItem).filter fun r =>
        tranKey r = ((⟨"P", "T1", ["A", "A"]⟩ : Basket).pos_name,
          (⟨"P", "T1", ["A", "A"]⟩ : Basket).tran_no)).map item_name_clean :=
  (C1_build_baskets_grouping _).2.2 ⟨"P", "T1", ["A", "A"]⟩ (by decide)

/-- C2 (corrected, counterexample): the thresholds in `pos.py` lines
192-193 are not 0.02 together with 0.2 — the confidence threshold passed
to `association_rules` is 0.1, not 0.2. -/
theorem C2_counterexample :
    ¬ (apriori_min_support = 2 / 100 ∧ association_min_threshold = 2 / 10) := by
  intro h
  have h2 := h.2
  norm_num [association_min_threshold] at h2

/-- C2 (amended): with the defaults of the source, frequent-itemset mining
runs with minimum support 0.02 and rule generation with minimum
confidence threshold 0.1. -/
theorem C2_thresholds :
    apriori_min_support = 2 / 100 ∧ association_min_threshold = 1 / 10 :=
  ⟨rfl, rfl⟩

/-- C3 (corrected, counterexample): with an active date-range filter, a
line-item whose `tran_date` failed to parse is dropped by `apply_filters`,
so it is NOT counted in the total-sales KPI (0 instead of its
`item_total` of 5) and not included in basket analysis, refuting the
claim for that choice of filters. -/
theorem C3_counterexample :
    apply_filters "All" (some (0, 100))
        [⟨"b1", " A ", 1, "P", "T1", none, 5, 5⟩] = []
    ∧ total_sales (apply_filters "All" (some (0, 100))
        [⟨"b1", " A ", 1, "P", "T1", none, 5, 5⟩]) = 0
    ∧ (⟨"b1", " A ", 1, "P", "T1", none, 5, 5⟩ : LineItem).item_total = 5
    ∧ build_baskets (apply_filters "All" (some (0, 100))
        [⟨"b1", " A ", 1, "P", "T1", none, 5, 5⟩]) = [] := by
  have h1 : apply_filters "All" (some (0, 100))
      [⟨"b1", " A ", 1, "P", "T1", none, 5, 5⟩] = [] := by decide
  exact ⟨h1, by rw [h1]; rfl, rfl, by rw [h1]; rfl⟩

/-- C3 (amended): a line-item with an unparseable `tran_date` contributes
to no hourly bucket and no half-hour bucket; when no date-range filter is
active it passes `apply_filters` exactly when it passes the POS filter
(and is then summed into the KPIs and fed to `build_baskets` like any
other retained row); but whenever a date-range filter is active,
`apply_filters` drops it, excluding it from KPIs and basket analysis as
well. -/
theorem C3_null_date_policy :
    (∀ (r : LineItem) (rows : List LineItem) (h : Nat), r.tran_date = none →
        hourly_total (r :: rows) h = hourly_total rows h)
    ∧ (∀ (r : LineItem) (rows : List LineItem) (b : Nat × Nat), r.tran_date = none →
        half_hour_total (r :: rows) b = half_hour_total rows b)
    ∧ (∀ (pos : String) (rows : List LineItem) (r : LineItem), r.tran_date = none →
        (r ∈ apply_filters pos none rows ↔ r ∈ rows ∧ posKeep pos r = true))
    ∧ (∀ (pos : String) (range : Nat × Nat) (rows : List LineItem) (r : LineItem),
        r.tran_date = none → r ∉ apply_filters pos (some range) rows) := by
  refine ⟨fun r rows h hr => ?_, fun r rows b hr => ?_,
    fun pos rows r hr => ?_, fun pos range rows r hr hmem => ?_⟩
  · unfold hourly_total
    rw [List.filter_cons]
    simp [hr]
  · unfold half_hour_total
    rw [List.filter_cons]
    simp [hr]
  · simp [apply_filters, List.mem_filter]
  · simp only [apply_filters] at hmem
    have h2 := (List.mem_filter.mp hmem).2
    simp [dateKeep, hr] at h2

/-- C3 witness: the policy theorem applied at a concrete null-date row and
an active date filter. -/
theorem C3_witness :
    (⟨"b1", " A ", 1, "P", "T1", none, 5, 5⟩ : LineItem) ∉
      apply_filters "All" (some (0, 100))
        [⟨"b1", " A ", 1, "P", "T1", none, 5, 5⟩] :=
  C3_null_date_policy.2.2.2 "All" (0, 100) _ _ rfl

/-- C4 (confirmed): the presence table of `compute_pair_counts` counts, for
every item, exactly the baskets containing it, and every recorded pair
entry's count is at most the minimum of its two items' presence counts. -/
theorem C4_presence_and_pair_bound : ∀ bs : List Basket,
    (∀ item : String,
        getD (compute_pair_counts bs).2 item 0 = bs.countP fun b => item ∈ b.items)
    ∧ ∀ e ∈ (compute_pair_counts bs).1,
        e.2 ≤ min (getD (compute_pair_counts bs).2 e.1.1 0)
            (getD (compute_pair_counts bs).2 e.1.2 0) := by
  intro bs
  refine ⟨presence_char bs, fun e he => ?_⟩
  obtain ⟨hlt, _⟩ := (cpc_inv bs).1 e he
  have hne : e.1.1 ≠ e.1.2 := strLt_ne hlt
  have hkey : sortPair e.1.1 e.1.2 = e.1 := by
    rw [sortPair_of_lt hlt]
  have hmain := pair_char bs hne
  rw [hkey] at hmain
  have hval : getD (compute_pair_counts bs).1 e.1 0 = e.2 := pair_entry_getD bs e he
  have he2 : e.2 = bs.countP fun bk => e.1.1 ∈ bk.items ∧ e.1.2 ∈ bk.items :=
    hval.symm.trans hmain
  rw [he2, presence_char, presence_char]
  refine le_min ?_ ?_
  · refine List.countP_mono_left fun x _ hx => ?_
    simp only [decide_eq_true_eq] at hx ⊢
    exact hx.1
  · refine List.countP_mono_left fun x _ hx => ?_
    simp only [decide_eq_true_eq] at hx ⊢
    exact hx.2

/-- C4 witness: the invariant instantiated on one concrete basket. -/
theorem C4_witness :
    getD (compute_pair_counts [(⟨"P", "T1", ["A", "B"]⟩ : Basket)]).2 "A" 0 =
      ([(⟨"P", "T1", ["A", "B"]⟩ : Basket)].countP fun b => "A" ∈ b.items)
    ∧ ((("A", "B"), 1) : (String × String) × Nat).2 ≤
        min (getD (compute_pair_counts [(⟨"P", "T1", ["A", "B"]⟩ : Basket)]).2
              ((("A", "B"), 1) : (String × String) × Nat).1.1 0)
            (getD (compute_pair_counts [(⟨"P", "T1", ["A", "B"]⟩ : Basket)]).2
              ((("A", "B"), 1) : (String × String) × Nat).1.2 0) :=
  ⟨(C4_presence_and_pair_bound _).1 "A",
    (C4_presence_and_pair_bound _).2 (("A", "B"), 1) (by decide)⟩

/-- C5 (confirmed): the fallback conditional probability equals
`100 * pairCounts[sorted(given, other)] / presence[given]` when the
presence of `given` is positive, and is 0 — never an error — whenever the
presence lookup (with default 0, covering an absent item) is 0. -/
theorem C5_conditional_probability : ∀ (pc : List ((String × String) × Nat))
    (tc : List (String × Nat)) (given other : String),
    (getD tc given 0 = 0 → conditional_chance pc tc given other = 0)
    ∧ (0 < getD tc given 0 →
        conditional_chance pc tc given other =
          100 * ((getD pc (sortPair given other) 0 : Nat) : ℚ) /
            ((getD tc given 0 : Nat) : ℚ)) := by
  intro pc tc given other
  constructor
  · intro h
    simp [conditional_chance, h]
  · intro h
    have hne : ((getD tc given 0 : Nat) : ℚ) ≠ 0 :=
      Nat.cast_ne_zero.mpr (Nat.pos_iff_ne_zero.mp h)
    simp only [conditional_chance, if_pos h]
    field_simp
    ring

/-- C5 witness: the conditional probability evaluated on concrete tables
with positive presence. -/
theorem C5_witness :
    0 < getD ([("A", 3), ("B", 4)] : List (String × Nat)) "A" 0
    ∧ conditional_chance [(("A", "B"), 2)] [("A", 3), ("B", 4)] "A" "B" =
        100 * ((getD ([(("A", "B"), 2)] : List ((String × String) × Nat))
            (sortPair "A" "B") 0 : Nat) : ℚ) /
          ((getD ([("A", 3), ("B", 4)] : List (String × Nat)) "A" 0 : Nat) : ℚ) :=
  ⟨by decide, (C5_conditional_probability _ _ "A" "B").2 (by decide)⟩

/-- C6 (confirmed): the pair key is the lexicographically sorted tuple, so
`(A, B)` and `(B, A)` always address one shared co-occurrence entry of the
table built by `compute_pair_counts`. -/
theorem C6_sorted_key_symmetric : ∀ (bs : List Basket) (a b : String),
    sortPair a b = sortPair b a
    ∧ getD (compute_pair_counts bs).1 (sortPair a b) 0 =
        getD (compute_pair_counts bs).1 (sortPair b a) 0 := by
  intro bs a b
  exact ⟨sortPair_symm a b, by rw [sortPair_symm a b]⟩

/-- C7 (confirmed): `compute_pair_counts` is insensitive to duplicate item
occurrences: deduplicating every basket first yields the same two tables,
each basket increments an item's presence once (not once per occurrence),
and each unordered pair of distinct items is counted once per basket. -/
theorem C7_duplicate_insensitive : ∀ bs : List Basket,
    compute_pair_counts (bs.map fun b => ⟨b.pos_name, b.tran_no, b.items.dedup⟩) =
      compute_pair_counts bs
    ∧ (∀ (tc : List (String × Nat)) (b : Basket) (k : String),
        getD (presenceLoop tc b.items.dedup) k 0 =
          getD tc k 0 + if k ∈ b.items then 1 else 0)
    ∧ (∀ (pc : List ((String × String) × Nat)) (b : Basket) (a c : String), a ≠ c →
        getD (pairLoop b.items.dedup pc) (sortPair a c) 0 =
          getD pc (sortPair a c) 0 + if a ∈ b.items ∧ c ∈ b.items then 1 else 0) := by
  intro bs
  refine ⟨compute_pair_counts_dedup bs, fun tc b k => ?_, fun pc b a c hac => ?_⟩
  · rw [getD_presenceLoop, countP_key_eq _ _ (List.nodup_dedup _)]
    simp [List.mem_dedup]
  · rw [getD_pairLoop, countPair_nodup hac _ (List.nodup_dedup _)]
    simp [List.mem_dedup]

/-- C7 witness: the once-per-basket pair count applied to a basket with a
repeated item name. -/
theorem C7_witness :
    getD (pairLoop ((⟨"P", "T1", ["A", "A", "B"]⟩ : Basket)).items.dedup [])
        (sortPair "A" "B") 0 =
      getD ([] : List ((String × String) × Nat)) (sortPair "A" "B") 0 +
        if "A" ∈ ((⟨"P", "T1", ["A", "A", "B"]⟩ : Basket)).items
            ∧ "B" ∈ ((⟨"P", "T1", ["A", "A", "B"]⟩ : Basket)).items then 1 else 0 :=
  (C7_duplicate_insensitive []).2.2 [] ⟨"P", "T1", ["A", "A", "B"]⟩ "A" "B" (by decide)

/-- C8 (confirmed): appending a basket with exactly one distinct item
leaves the pair table unchanged, increments that item's presence by one,
and changes no other item's presence. -/
theorem C8_singleton_basket : ∀ (bs : List Basket) (b : Basket) (x : String),
    b.items.dedup = [x] →
    (compute_pair_counts (bs ++ [b])).1 = (compute_pair_counts bs).1
    ∧ getD (compute_pair_counts (bs ++ [b])).2 x 0 =
        getD (compute_pair_counts bs).2 x 0 + 1
    ∧ ∀ k : String, k ≠ x →
        getD (compute_pair_counts (bs ++ [b])).2 k 0 =
          getD (compute_pair_counts bs).2 k 0 := by
  intro bs b x hx
  have happ : compute_pair_counts (bs ++ [b]) = cpcStep (compute_pair_counts bs) b := by
    unfold compute_pair_counts
    rw [List.foldl_append, List.foldl_cons, List.foldl_nil]
  have hb : cpcStep (compute_pair_counts bs) b =
      (pairLoop [x] (compute_pair_counts bs).1,
        presenceLoop (compute_pair_counts bs).2 [x]) := by
    simp [cpcStep, hx]
  rw [happ, hb]
  refine ⟨rfl, ?_, fun k hk => ?_⟩
  · simp [presenceLoop, getD_incr]
  · simp [presenceLoop, getD_incr, hk]

/-- C8 witness: the singleton-basket theorem applied to the spec's own
scenario, a basket `{T5: {D}}` (here with a duplicated raw occurrence). -/
theorem C8_witness :
    (compute_pair_counts ([] ++ [(⟨"P", "T5", ["D", "D"]⟩ : Basket)])).1 =
      (compute_pair_counts ([] : List Basket)).1
    ∧ getD (compute_pair_counts ([] ++ [(⟨"P", "T5", ["D", "D"]⟩ : Basket)])).2 "D" 0 =
        getD (compute_pair_counts ([] : List Basket)).2 "D" 0 + 1
    ∧ getD (compute_pair_counts ([] ++ [(⟨"P", "T5", ["D", "D"]⟩ : Basket)])).2 "E" 0 =
        getD (compute_pair_counts ([] : List Basket)).2 "E" 0 := by
  have h := C8_singleton_basket [] ⟨"P", "T5", ["D", "D"]⟩ "D" (by decide)
  exact ⟨h.1, h.2.1, h.2.2 "E" (by decide)⟩

/-- C9 (confirmed): `build_baskets` on an empty line-item sequence returns
the empty basket collection (it is total, so no error is possible). -/
theorem C9_empty_input : build_baskets ([] : List LineItem) = [] := rfl

/-- C10 (confirmed): every key of the pair table is strictly
lexicographically sorted (so no self-pairs and no reversed duplicates),
the keys are pairwise distinct, and every stored count in both tables is
at least 1. -/
theorem C10_key_invariant : ∀ bs : List Basket,
    (∀ e ∈ (compute_pair_counts bs).1, strLt e.1.1 e.1.2 = true ∧ 1 ≤ e.2)
    ∧ (∀ e ∈ (compute_pair_counts bs).2, 1 ≤ e.2)
    ∧ (((compute_pair_counts bs).1.map Prod.fst).Nodup) := by
  intro bs
  exact cpc_inv bs

/-- C10 witness: the invariant read off one concrete pair-table entry. -/
theorem C10_witness :
    (strLt ((("A", "B"), 1) : (String × String) × Nat).1.1
        ((("A", "B"), 1) : (String × String) × Nat).1.2 = true
      ∧ 1 ≤ ((("A", "B"), 1) : (String × String) × Nat).2)
    ∧ 1 ≤ (("A", 1) : String × Nat).2 := by
  have h := C10_key_invariant [⟨"Q", "T9", ["B", "A"]⟩]
  exact ⟨h.1 (("A", "B"), 1) (by decide), h.2.1 ("A", 1) (by decide)⟩

end POS
